import Mathlib

/-!
Verification of the ipfs-embed storage service (`src/sqlite/src/lib.rs`).

The visible Rust code is a thin wrapper over the `ipfs-sqlite-block-store`
crate: the wrapper owns the configuration (`StorageConfig`), the service
facade (`StorageService` with `evict`, `alias`, `reverse_alias`, ...), the
metrics instrumentation (`observe_query`), and the eviction-notification
cache tracker (`IpfsCacheTracker`).  Those parts are embedded directly from
the source.  The underlying block store itself (insert/get, alias table,
temp pins, reachability traversal and the incremental GC passes) is not
part of the visible source; following the specification, those parts are
modelled from the spec's own description (each such definition carries a
doc comment starting with `Modelled from the spec:`).

CIDs are modelled as natural numbers, alias names and raw bytes as lists of
natural numbers.
-/

namespace IpfsEmbed

/-- A content identifier.  Opaque to the engine; modelled as a natural. -/
abbrev Cid := Nat

/-- Alias names are opaque byte strings. -/
abbrev AliasName := List Nat

/-- A block: content bytes together with its CID and the list of CIDs the
decoded payload references.  The reference-extraction capability is treated
as already applied, so the links travel with the block. -/
structure BlockData where
  cid : Cid
  data : List Nat
  links : List Cid
deriving Repr, DecidableEq

/-- Modelled from the spec: the state of the block store missing from the
visible source — stored blocks (an association list from CID to payload
bytes and extracted links), the alias table (name to target CID) and the
temporary-pin registry (handle to protected CID set). -/
structure StoreState where
  blocks : List (Cid × (List Nat × List Cid))
  aliases : List (AliasName × Cid)
  tempPins : List (Nat × List Cid)
deriving Repr, DecidableEq

/-- Modelled from the spec: the CIDs referenced by the stored block `c`;
a block that is absent from the store contributes no outgoing references. -/
def linksOf (st : StoreState) (c : Cid) : List Cid :=
  match st.blocks.lookup c with
  | some entry => entry.2
  | none => []

/-- Modelled from the spec: the current root set — all alias targets
together with all CIDs protected by live temp pins. -/
def rootList (st : StoreState) : List Cid :=
  st.aliases.map (fun a => a.2) ++ (st.tempPins.map (fun p => p.2)).flatten

/-- One expansion step of the reachability traversal: keep the visited set
and add every CID referenced by a visited block. -/
def expandOnce (st : StoreState) (s : List Cid) : List Cid :=
  s ++ s.flatMap (linksOf st)

/-- Iterated expansion of an initial CID set. -/
def closureSteps (st : StoreState) (init : List Cid) : Nat → List Cid
  | 0 => init
  | n + 1 => expandOnce st (closureSteps st init n)

/-- Every CID that can ever enter the traversal: the initial set plus every
link stored anywhere in the store. -/
def closureUniverse (st : StoreState) (init : List Cid) : List Cid :=
  init ++ st.blocks.flatMap (fun b => b.2.2)

/-- Enough fuel for the fueled traversal to reach its fixed point. -/
def closureBound (st : StoreState) (init : List Cid) : Nat :=
  (closureUniverse st init).length

/-- Modelled from the spec: the cycle-safe reachability traversal — the set
of CIDs transitively reachable from `init` following stored references. -/
def closureFrom (st : StoreState) (init : List Cid) : List Cid :=
  closureSteps st init (closureBound st init)

/-- Modelled from the spec: the set of CIDs reachable from some root. -/
def reachableList (st : StoreState) : List Cid :=
  closureFrom st (rootList st)

/-- `Reach st a b`: CID `b` is transitively reachable from CID `a` by
following stored references in `st`. -/
inductive Reach (st : StoreState) : Cid → Cid → Prop
  | refl (c : Cid) : Reach st c c
  | tail {a b c : Cid} : Reach st a b → c ∈ linksOf st b → Reach st a c

/-- Modelled from the spec: is CID `c` transitively reachable from `r`?
Executable single-source reachability used by `reverse_alias`. -/
def reachesFromB (st : StoreState) (r c : Cid) : Bool :=
  (closureFrom st [r]).contains c

/-- The CIDs of the stored blocks. -/
def blockCids (st : StoreState) : List Cid :=
  st.blocks.map (fun b => b.1)

/-- Modelled from the spec: `get(cid)` — the stored bytes, `none` when the
block is absent. -/
def get (st : StoreState) (c : Cid) : Option (List Nat) :=
  (st.blocks.lookup c).map (fun entry => entry.1)

/-- Modelled from the spec: add the CIDs `cs` to the protected set of pin
entry `p` when its handle matches `h`, keeping one entry per CID. -/
def pinAdd (h : Nat) (cs : List Cid) (p : Nat × List Cid) : Nat × List Cid :=
  if p.1 == h then (p.1, p.2 ++ cs.filter (fun c => !(p.2.contains c))) else p

/-- Modelled from the spec: grow a temp pin's protected set with the given
CIDs (idempotent, order-independent). -/
def assignTempPin (st : StoreState) (h : Nat) (cs : List Cid) : StoreState :=
  { st with tempPins := st.tempPins.map (pinAdd h cs) }

/-- Modelled from the spec: `insert(block, alias)` (`put_block` in the
wrapper).  Stores the block under its CID — two inserts of the same CID are
idempotent, modelled as overwrite-with-identical-bytes — and, when a temp
pin handle is supplied, adds the CID to that pin's protected set. -/
def insertBlock (st : StoreState) (b : BlockData) (pin : Option Nat) : StoreState :=
  let st1 : StoreState :=
    { st with
      blocks := (b.cid, (b.data, b.links)) :: st.blocks.filter (fun e => !(e.1 == b.cid)) }
  match pin with
  | some h => assignTempPin st1 h [b.cid]
  | none => st1

/-- Modelled from the spec: `alias(name, target)` — `some c` (re)binds the
alias name to `c`, `none` removes the alias; at most one row per name. -/
def setAlias (st : StoreState) (name : AliasName) (target : Option Cid) : StoreState :=
  match target with
  | some c => { st with aliases := (name, c) :: st.aliases.filter (fun a => !(a.1 == name)) }
  | none => { st with aliases := st.aliases.filter (fun a => !(a.1 == name)) }

/-- Modelled from the spec: `reverse_alias(cid)` — `none` when the block is
absent, otherwise the (possibly empty) list of alias names from whose
target `cid` is transitively reachable. -/
def reverseAlias (st : StoreState) (c : Cid) : Option (List AliasName) :=
  if (st.blocks.lookup c).isSome then
    some ((st.aliases.filter (fun a => reachesFromB st a.2 c)).map (fun a => a.1))
  else none

/-- Remove the blocks with the given CIDs from the store (aliases and temp
pins are untouched; the GC deletes blocks, never roots). -/
def deleteBlocks (st : StoreState) (cs : List Cid) : StoreState :=
  { st with blocks := st.blocks.filter (fun e => !(cs.contains e.1)) }

/-- Modelled from the spec: the unreachable candidate set of one GC pass —
all stored blocks not reachable from the root set. -/
def candidates (st : StoreState) : List Cid :=
  (blockCids st).filter (fun c => !((reachableList st).contains c))

/-- Modelled from the spec: one incremental GC pass with block budget
`minBlocks` — compute the unreachable candidates, delete up to `minBlocks`
of them, and report `true` ("done") exactly when no eligible candidate
remains afterwards.  The `target_duration` time budget only allows a pass
to delete more than `minBlocks` blocks before the deadline; time is not
modelled, so the pass deletes exactly the budgeted prefix. -/
def incrementalGC (st : StoreState) (minBlocks : Nat) : StoreState × Bool :=
  let cand := candidates st
  (deleteBlocks st (cand.take minBlocks), decide (cand.length ≤ minBlocks))

/-- Modelled from the spec: the cascading orphan-deletion pass
(`incremental_delete_orphaned`) — repeats the GC steps targeting blocks
that became unreachable through earlier deletions; with reachability
recomputed from the current state it deletes the current unreachable
candidates under the same budget and done-condition as `incrementalGC`. -/
def incrementalDeleteOrphaned (st : StoreState) (minBlocks : Nat) : StoreState × Bool :=
  let cand := candidates st
  (deleteBlocks st (cand.take minBlocks), decide (cand.length ≤ minBlocks))

/-- `n` successive invocations of the incremental GC pass with a fixed
budget and no intervening mutation. -/
def iterGC (minBlocks : Nat) : Nat → StoreState → StoreState
  | 0, st => st
  | n + 1, st => iterGC minBlocks n (incrementalGC st minBlocks).1

/-- Run `pass` repeatedly until it reports done (the `while !pass {}` loops
of `StorageService::evict`), with explicit fuel; returns the final state
and whether the loop exited because a pass reported done. -/
def loopUntilDone (pass : StoreState → Nat → StoreState × Bool) (minBlocks : Nat) :
    Nat → StoreState → StoreState × Bool
  | 0, st => (st, false)
  | fuel + 1, st =>
    let r := pass st minBlocks
    if r.2 then (r.1, true) else loopUntilDone pass minBlocks fuel r.1

/-- `StorageService::evict`: repeatedly invoke the incremental GC pass until
it reports done, then repeatedly invoke the orphan-deletion pass until it
reports done.  The Rust loops are unbounded `while` loops; here each loop
carries fuel `block count + 1`, proved sufficient below. -/
def evict (st : StoreState) (minBlocks : Nat) : StoreState × Bool :=
  let r1 := loopUntilDone incrementalGC minBlocks (st.blocks.length + 1) st
  let r2 := loopUntilDone incrementalDeleteOrphaned minBlocks (r1.1.blocks.length + 1) r1.1
  (r2.1, r1.2 && r2.2)

/-- A small example store: block 1 references block 2, block 3 is
unreferenced, and the alias `[0]` targets block 1. -/
def exampleStore : StoreState :=
  ⟨[(1, ([5], [2])), (2, ([6], [])), (3, ([7], []))], [([0], 1)], []⟩

/-- The scenario of the Rust test `test_store_unpin2`: block 2 references
block 1, and the aliases `[0]` (for `x`) and `[1]` (for `y`) both target
block 2. -/
def twoAliasStore : StoreState :=
  ⟨[(1, ([10], [])), (2, ([20], [1]))], [([0], 2), ([1], 2)], []⟩

/-- A store in which three aliases `[0]`, `[1]`, `[2]` all target the
stored block 1. -/
def threeAliasStore : StoreState :=
  ⟨[(1, ([9], []))], [([0], 1), ([1], 1), ([2], 1)], []⟩

/-! ## The wrapper code embedded from `src/sqlite/src/lib.rs` -/

/-- Maximum value of Rust's `u64`. -/
def U64_MAX : Nat := 2 ^ 64 - 1

/-- Maximum value of Rust's `usize` (the crate targets 64-bit platforms). -/
def USIZE_MAX : Nat := 2 ^ 64 - 1

/-- Rust's `std::time::Duration`: whole seconds plus a sub-second
nanosecond part, with `nanos < 10^9` by construction. -/
structure DurationM where
  secs : Nat
  nanos : Nat
deriving Repr, DecidableEq

/-- `Duration::new(secs, nanos)`: carries surplus nanoseconds into the
seconds; panics (here: `none`) if the seconds overflow `u64`. -/
def DurationM.new (secs nanos : Nat) : Option DurationM :=
  let s := secs + nanos / 1000000000
  if s ≤ U64_MAX then some ⟨s, nanos % 1000000000⟩ else none

/-- The largest representable `Duration`. -/
def DurationM.maxRepresentable : DurationM := ⟨U64_MAX, 999999999⟩

/-- `StorageConfig` from the wrapper source. -/
structure StorageConfig where
  path : Option String
  cacheSizeBlocks : Nat
  cacheSizeBytes : Nat
  gcInterval : DurationM
  gcMinBlocks : Nat
  gcTargetDuration : DurationM
deriving Repr, DecidableEq

/-- `StorageConfig::new(path, cache_size, gc_interval)`: `cache_size_bytes`
defaults to `u64::MAX`, `gc_min_blocks` to `usize::MAX` and
`gc_target_duration` to `Duration::new(u64::MAX, 1_000_000_000 - 1)`. -/
def StorageConfig.new (path : Option String) (cacheSize : Nat) (gcInterval : DurationM) :
    StorageConfig :=
  { path := path
    cacheSizeBlocks := cacheSize
    cacheSizeBytes := U64_MAX
    gcInterval := gcInterval
    gcMinBlocks := USIZE_MAX
    gcTargetDuration := (DurationM.new U64_MAX (1000000000 - 1)).getD ⟨0, 0⟩ }

/-- The storage backend chosen by `StorageService::open`: `BlockStore::memory`
(an ephemeral in-memory store) or `BlockStore::open(path)` (a durable store
at `path`). -/
inductive StoreBackend
  | memory
  | file (path : String)
deriving Repr, DecidableEq

/-- The parts of a constructed `StorageService` visible in its behaviour:
the chosen backend and the GC parameters retained from the config. -/
structure ServiceModel where
  backend : StoreBackend
  gcMinBlocks : Nat
  gcTargetDuration : DurationM
  gcInterval : DurationM
deriving Repr, DecidableEq

/-- `StorageService::open(config, tx)`: when `config.path` is `Some(path)`
the service opens a durable store at `path`, otherwise an in-memory store;
the GC parameters are taken from the config. -/
def openStorageService (config : StorageConfig) : ServiceModel :=
  { backend :=
      match config.path with
      | some path => StoreBackend.file path
      | none => StoreBackend.memory
    gcMinBlocks := config.gcMinBlocks
    gcTargetDuration := config.gcTargetDuration
    gcInterval := config.gcInterval }

/-- `StorageEvent` from the wrapper source. -/
inductive StorageEvent
  | Remove (cid : Cid)
deriving Repr, DecidableEq

/-- One endpoint view of `futures::channel::mpsc::unbounded`: the buffered
events, whether the receiving end has been dropped, and how many sends were
attempted. -/
structure Channel where
  closed : Bool
  buf : List StorageEvent
  attempts : Nat
deriving Repr, DecidableEq

/-- `UnboundedSender::unbounded_send`: enqueues the event and succeeds while
the receiver is alive; fails (returning an error the caller may drop with
`.ok()`) once the receiver has been dropped. -/
def unboundedSend (ch : Channel) (ev : StorageEvent) : Channel × Bool :=
  if ch.closed then ({ ch with attempts := ch.attempts + 1 }, false)
  else ({ ch with buf := ch.buf ++ [ev], attempts := ch.attempts + 1 }, true)

/-- `BlockInfo` as seen by a cache tracker. -/
structure BlockInfo where
  id : Nat
  cid : Cid
  blockSize : Nat
deriving Repr, DecidableEq

/-- The state touched by `IpfsCacheTracker`: the event channel and the
inner tracker, which here just records every `blocks_deleted` call it
receives. -/
structure TrackerState where
  chan : Channel
  innerDeleted : List (List BlockInfo)
deriving Repr, DecidableEq

/-- `IpfsCacheTracker::blocks_deleted`: for each deleted block, in order,
attempt to send `StorageEvent::Remove(cid)` on the channel, discarding any
send error with `.ok()`; then forward the whole list to the inner
tracker. -/
def blocksDeleted (ts : TrackerState) (blocks : List BlockInfo) : TrackerState :=
  { chan := blocks.foldl (fun c b => (unboundedSend c (StorageEvent.Remove b.cid)).1) ts.chan
    innerDeleted := ts.innerDeleted ++ [blocks] }

/-- The result of an awaited store query, as `observe_query` sees it. -/
inductive QueryResult (α : Type)
  | ok (a : α)
  | err (e : String)
deriving Repr, DecidableEq

/-- Whether a query result is a success. -/
def QueryResult.isOk {α : Type} : QueryResult α → Bool
  | .ok _ => true
  | .err _ => false

/-- The metrics registry touched by `observe_query`: the per-operation
invocation counters (`QUERIES_TOTAL`) and the per-operation duration
histograms (`QUERY_DURATION`), each labelled by operation name. -/
structure Metrics where
  counters : String → Nat
  histograms : String → List Nat

/-- `QUERIES_TOTAL.with_label_values(&[name]).inc()`. -/
def incCounter (m : Metrics) (name : String) : Metrics :=
  { m with counters := fun k => if k = name then m.counters name + 1 else m.counters k }

/-- `timer.observe_duration()`: record the elapsed sample in the histogram
for `name`. -/
def recordSample (m : Metrics) (name : String) (sample : Nat) : Metrics :=
  { m with
    histograms := fun k => if k = name then m.histograms name ++ [sample] else m.histograms k }

/-- `observe_query(name, query)`: increment the invocation counter, run the
query under a timer, record the duration sample only when the query
succeeded — a failed query stops and discards the timer — and pass the
result through. -/
def observeQuery {α : Type} (m : Metrics) (name : String) (res : QueryResult α)
    (sample : Nat) : Metrics × QueryResult α :=
  let m1 := incCounter m name
  match res with
  | .ok a => (recordSample m1 name sample, .ok a)
  | .err e => (m1, .err e)

/-! ## Basic lemmas about lookups and filters -/

lemma contains_iff_mem {l : List Cid} {a : Cid} : l.contains a = true ↔ a ∈ l :=
  List.elem_iff

lemma lookup_mem {β : Type} {l : List (Cid × β)} {c : Cid} {v : β}
    (h : l.lookup c = some v) : (c, v) ∈ l := by
  induction l with
  | nil => simp [List.lookup] at h
  | cons e t ih =>
    rcases e with ⟨k, w⟩
    rw [List.lookup_cons] at h
    cases hck : (c == k) with
    | true =>
      rw [hck] at h
      simp at h
      have : c = k := by simpa using hck
      subst this
      subst h
      exact List.mem_cons_self _ _
    | false =>
      rw [hck] at h
      exact List.mem_cons_of_mem _ (ih h)

lemma lookup_filter_not_mem {β : Type} (l : List (Cid × β)) (cs : List Cid) (c : Cid)
    (h : c ∉ cs) : (l.filter (fun e => !(cs.contains e.1))).lookup c = l.lookup c := by
  induction l with
  | nil => rfl
  | cons e t ih =>
    rcases e with ⟨k, w⟩
    by_cases hk : (cs.contains k) = true
    · have hck : (c == k) = false := by
        refine beq_eq_false_iff_ne.mpr ?_
        intro he
        exact h (contains_iff_mem.mp (he ▸ hk))
      rw [List.filter_cons_of_neg (by simp; exact contains_iff_mem.mp hk),
        List.lookup_cons, hck]
      exact ih
    · rw [List.filter_cons_of_pos (by simp; exact fun hm => hk (contains_iff_mem.mpr hm)),
        List.lookup_cons, List.lookup_cons]
      cases hck : (c == k) with
      | true => rfl
      | false => exact ih

lemma lookup_filter_mem {β : Type} (l : List (Cid × β)) (cs : List Cid) (c : Cid)
    (h : c ∈ cs) : (l.filter (fun e => !(cs.contains e.1))).lookup c = none := by
  induction l with
  | nil => rfl
  | cons e t ih =>
    rcases e with ⟨k, w⟩
    by_cases hk : (cs.contains k) = true
    · rw [List.filter_cons_of_neg (by simp; exact contains_iff_mem.mp hk)]
      exact ih
    · have hck : (c == k) = false := by
        refine beq_eq_false_iff_ne.mpr ?_
        intro he
        subst he
        exact hk (contains_iff_mem.mpr h)
      rw [List.filter_cons_of_pos (by simp; exact fun hm => hk (contains_iff_mem.mpr hm)),
        List.lookup_cons, hck]
      exact ih

/-! ## The reachability traversal: fixpoint and characterization -/

lemma linksOf_deleteBlocks_not_mem (st : StoreState) (cs : List Cid) (c : Cid)
    (h : c ∉ cs) : linksOf (deleteBlocks st cs) c = linksOf st c := by
  unfold linksOf deleteBlocks
  rw [lookup_filter_not_mem st.blocks cs c h]

lemma linksOf_deleteBlocks_mem (st : StoreState) (cs : List Cid) (c : Cid)
    (h : c ∈ cs) : linksOf (deleteBlocks st cs) c = [] := by
  unfold linksOf deleteBlocks
  rw [lookup_filter_mem st.blocks cs c h]

lemma linksOf_subset_universe {st : StoreState} {c x : Cid} (h : x ∈ linksOf st c)
    (init : List Cid) : x ∈ closureUniverse st init := by
  unfold linksOf at h
  unfold closureUniverse
  cases he : st.blocks.lookup c with
  | none => rw [he] at h; simp at h
  | some entry =>
    rw [he] at h
    refine List.mem_append_right _ ?_
    exact List.mem_flatMap.mpr ⟨(c, entry), lookup_mem he, h⟩

lemma mem_expandOnce {st : StoreState} {s : List Cid} {x : Cid} :
    x ∈ expandOnce st s ↔ x ∈ s ∨ ∃ c ∈ s, x ∈ linksOf st c := by
  unfold expandOnce
  rw [List.mem_append, List.mem_flatMap]

lemma expandOnce_congr {st : StoreState} {s t : List Cid}
    (h : ∀ y, y ∈ s ↔ y ∈ t) (x : Cid) : x ∈ expandOnce st s ↔ x ∈ expandOnce st t := by
  rw [mem_expandOnce, mem_expandOnce]
  constructor
  · rintro (hx | ⟨c, hc, hx⟩)
    · exact Or.inl ((h x).mp hx)
    · exact Or.inr ⟨c, (h c).mp hc, hx⟩
  · rintro (hx | ⟨c, hc, hx⟩)
    · exact Or.inl ((h x).mpr hx)
    · exact Or.inr ⟨c, (h c).mpr hc, hx⟩

lemma subset_expandOnce {st : StoreState} {s : List Cid} {x : Cid} (h : x ∈ s) :
    x ∈ expandOnce st s :=
  mem_expandOnce.mpr (Or.inl h)

lemma closureSteps_mono_succ {st : StoreState} {init : List Cid} {n : Nat} {x : Cid}
    (h : x ∈ closureSteps st init n) : x ∈ closureSteps st init (n + 1) :=
  subset_expandOnce h

lemma closureSteps_mono {st : StoreState} {init : List Cid} {n m : Nat} (hnm : n ≤ m)
    {x : Cid} (h : x ∈ closureSteps st init n) : x ∈ closureSteps st init m := by
  induction m with
  | zero => simpa [Nat.le_zero.mp hnm] using h
  | succ k ih =>
    rcases Nat.lt_or_ge n (k + 1) with hlt | hge
    · exact closureSteps_mono_succ (ih (Nat.lt_succ_iff.mp hlt))
    · simpa [Nat.le_antisymm hnm hge] using h

lemma closureSteps_subset_universe {st : StoreState} {init : List Cid} {n : Nat} {x : Cid}
    (h : x ∈ closureSteps st init n) : x ∈ closureUniverse st init := by
  induction n generalizing x with
  | zero => exact List.mem_append_left _ h
  | succ k ih =>
    rcases mem_expandOnce.mp h with hx | ⟨c, _, hx⟩
    · exact ih hx
    · exact linksOf_subset_universe hx init

lemma closureSteps_stable_step {st : StoreState} {init : List Cid} {n : Nat}
    (h : ∀ y, y ∈ closureSteps st init (n + 1) ↔ y ∈ closureSteps st init n) :
    ∀ y, y ∈ closureSteps st init (n + 2) ↔ y ∈ closureSteps st init (n + 1) := by
  intro y
  exact expandOnce_congr h y

lemma closureSteps_stable_add {st : StoreState} {init : List Cid} {n : Nat}
    (h : ∀ y, y ∈ closureSteps st init (n + 1) ↔ y ∈ closureSteps st init n) :
    ∀ k y, y ∈ closureSteps st init (n + k) ↔ y ∈ closureSteps st init n := by
  intro k
  induction k with
  | zero => intro y; rfl
  | succ j ih =>
    intro y
    have step : y ∈ closureSteps st init (n + j + 1) ↔ y ∈ closureSteps st init (n + 1) :=
      expandOnce_congr ih y
    exact Iff.trans (by rw [show n + (j + 1) = n + j + 1 from rfl]; exact step) (h y)

lemma closureSteps_stable {st : StoreState} {init : List Cid} {n : Nat}
    (h : ∀ y, y ∈ closureSteps st init (n + 1) ↔ y ∈ closureSteps st init n) :
    ∀ m, n ≤ m → ∀ y, y ∈ closureSteps st init m ↔ y ∈ closureSteps st init n := by
  intro m hm y
  have : m = n + (m - n) := by omega
  rw [this]
  exact closureSteps_stable_add h (m - n) y

lemma card_strict_growth {st : StoreState} {init : List Cid} :
    ∀ n : Nat,
      (∀ m < n, ¬ ∀ y, y ∈ closureSteps st init (m + 1) ↔ y ∈ closureSteps st init m) →
      n ≤ (closureSteps st init n).toFinset.card := by
  intro n
  induction n with
  | zero => intro _; exact Nat.zero_le _
  | succ k ih =>
    intro h
    have hk : k ≤ (closureSteps st init k).toFinset.card :=
      ih (fun m hm => h m (Nat.lt_succ_of_lt hm))
    have hne : (closureSteps st init k).toFinset ≠ (closureSteps st init (k + 1)).toFinset := by
      intro heq
      refine h k (Nat.lt_succ_self k) ?_
      intro y
      constructor
      · intro hy
        have : y ∈ (closureSteps st init (k + 1)).toFinset := List.mem_toFinset.mpr hy
        exact List.mem_toFinset.mp (heq ▸ this)
      · exact closureSteps_mono_succ
    have hsub : (closureSteps st init k).toFinset ⊆ (closureSteps st init (k + 1)).toFinset := by
      intro y hy
      exact List.mem_toFinset.mpr (closureSteps_mono_succ (List.mem_toFinset.mp hy))
    have hlt : (closureSteps st init k).toFinset.card <
        (closureSteps st init (k + 1)).toFinset.card :=
      Finset.card_lt_card (Finset.ssubset_iff_subset_ne.mpr ⟨hsub, hne⟩)
    omega

lemma exists_stable_index (st : StoreState) (init : List Cid) :
    ∃ n ≤ closureBound st init,
      ∀ y, y ∈ closureSteps st init (n + 1) ↔ y ∈ closureSteps st init n := by
  by_contra hcon
  have hb : closureBound st init + 1 ≤
      (closureSteps st init (closureBound st init + 1)).toFinset.card := by
    refine card_strict_growth (closureBound st init + 1) ?_
    intro m hm hstable
    exact hcon ⟨m, Nat.lt_succ_iff.mp hm, hstable⟩
  have hsubU : (closureSteps st init (closureBound st init + 1)).toFinset ⊆
      (closureUniverse st init).toFinset := by
    intro y hy
    exact List.mem_toFinset.mpr (closureSteps_subset_universe (List.mem_toFinset.mp hy))
  have hcard : (closureSteps st init (closureBound st init + 1)).toFinset.card ≤
      closureBound st init :=
    le_trans (Finset.card_le_card hsubU) (List.toFinset_card_le _)
  omega

lemma closureFrom_fixpoint (st : StoreState) (init : List Cid) :
    ∀ y, y ∈ expandOnce st (closureFrom st init) ↔ y ∈ closureFrom st init := by
  obtain ⟨n, hn, hstable⟩ := exists_stable_index st init
  have hb : ∀ y, y ∈ closureSteps st init (closureBound st init) ↔
      y ∈ closureSteps st init n := closureSteps_stable hstable _ hn
  have hb1 : ∀ y, y ∈ closureSteps st init (closureBound st init + 1) ↔
      y ∈ closureSteps st init n :=
    closureSteps_stable hstable _ (Nat.le_succ_of_le hn)
  intro y
  exact Iff.trans (hb1 y) (Iff.symm (hb y))

lemma closureSteps_reach {st : StoreState} {init : List Cid} {n : Nat} {x : Cid}
    (h : x ∈ closureSteps st init n) : ∃ r ∈ init, Reach st r x := by
  induction n generalizing x with
  | zero => exact ⟨x, h, Reach.refl x⟩
  | succ k ih =>
    rcases mem_expandOnce.mp h with hx | ⟨c, hc, hx⟩
    · exact ih hx
    · obtain ⟨r, hr, hreach⟩ := ih hc
      exact ⟨r, hr, Reach.tail hreach hx⟩

lemma closureFrom_iff_reach (st : StoreState) (init : List Cid) (x : Cid) :
    x ∈ closureFrom st init ↔ ∃ r ∈ init, Reach st r x := by
  constructor
  · exact closureSteps_reach
  · rintro ⟨r, hr, hreach⟩
    induction hreach with
    | refl =>
      exact closureSteps_mono (Nat.zero_le _) hr
    | tail hab hc ih =>
      exact (closureFrom_fixpoint st init _).mp (mem_expandOnce.mpr (Or.inr ⟨_, ih, hc⟩))

lemma reachesFromB_iff (st : StoreState) (r c : Cid) :
    reachesFromB st r c = true ↔ Reach st r c := by
  unfold reachesFromB
  rw [contains_iff_mem, closureFrom_iff_reach]
  constructor
  · rintro ⟨r', hr', h⟩
    rcases List.mem_singleton.mp hr' with rfl
    exact h
  · intro h
    exact ⟨r, List.mem_singleton.mpr rfl, h⟩

lemma linksOf_congr {st st' : StoreState} (h : st.blocks = st'.blocks) (c : Cid) :
    linksOf st c = linksOf st' c := by
  unfold linksOf
  rw [h]

lemma reach_congr {st st' : StoreState} (h : st.blocks = st'.blocks) {a b : Cid} :
    Reach st a b ↔ Reach st' a b := by
  constructor
  · intro hr
    induction hr with
    | refl => exact Reach.refl _
    | tail hab hc ih => exact Reach.tail ih (linksOf_congr h _ ▸ hc)
  · intro hr
    induction hr with
    | refl => exact Reach.refl _
    | tail hab hc ih => exact Reach.tail ih ((linksOf_congr h _).symm ▸ hc)

lemma reach_deleteBlocks_imp {st : StoreState} {cs : List Cid} {a b : Cid}
    (h : Reach (deleteBlocks st cs) a b) : Reach st a b := by
  induction h with
  | refl => exact Reach.refl _
  | tail hab hc ih =>
    rename_i y z
    by_cases hy : y ∈ cs
    · rw [linksOf_deleteBlocks_mem st cs y hy] at hc
      simp at hc
    · rw [linksOf_deleteBlocks_not_mem st cs y hy] at hc
      exact Reach.tail ih hc

lemma reach_deleteBlocks_of_unreachable {st : StoreState} {cs init : List Cid}
    (hcs : ∀ c ∈ cs, c ∉ closureFrom st init) {r x : Cid} (hr : r ∈ init)
    (h : Reach st r x) : Reach (deleteBlocks st cs) r x := by
  induction h with
  | refl => exact Reach.refl _
  | tail hab hc ih =>
    rename_i b c
    have hbcl : b ∈ closureFrom st init :=
      (closureFrom_iff_reach st init b).mpr ⟨r, hr, hab⟩
    have hbcs : b ∉ cs := fun hmem => hcs b hmem hbcl
    exact Reach.tail ih (by rw [linksOf_deleteBlocks_not_mem st cs b hbcs]; exact hc)

lemma closureFrom_deleteBlocks {st : StoreState} {cs init : List Cid}
    (hcs : ∀ c ∈ cs, c ∉ closureFrom st init) (x : Cid) :
    x ∈ closureFrom (deleteBlocks st cs) init ↔ x ∈ closureFrom st init := by
  rw [closureFrom_iff_reach, closureFrom_iff_reach]
  constructor
  · rintro ⟨r, hr, h⟩
    exact ⟨r, hr, reach_deleteBlocks_imp h⟩
  · rintro ⟨r, hr, h⟩
    exact ⟨r, hr, reach_deleteBlocks_of_unreachable hcs hr h⟩

/-! ## GC pass and eviction loop lemmas -/

lemma rootList_deleteBlocks (st : StoreState) (cs : List Cid) :
    rootList (deleteBlocks st cs) = rootList st := rfl

lemma reachableList_deleteBlocks {st : StoreState} {cs : List Cid}
    (hcs : ∀ c ∈ cs, c ∉ reachableList st) (x : Cid) :
    x ∈ reachableList (deleteBlocks st cs) ↔ x ∈ reachableList st := by
  unfold reachableList
  rw [rootList_deleteBlocks]
  exact closureFrom_deleteBlocks hcs x

lemma mem_candidates {st : StoreState} {c : Cid} :
    c ∈ candidates st ↔ c ∈ blockCids st ∧ c ∉ reachableList st := by
  unfold candidates
  rw [List.mem_filter]
  constructor
  · rintro ⟨hmem, hp⟩
    refine ⟨hmem, fun hr => ?_⟩
    rw [Bool.not_eq_true', ← Bool.not_eq_true] at hp
    exact hp (contains_iff_mem.mpr hr)
  · rintro ⟨hmem, hr⟩
    refine ⟨hmem, ?_⟩
    simp only [Bool.not_eq_true']
    rw [← Bool.not_eq_true]
    intro hcontains
    exact hr (contains_iff_mem.mp hcontains)

lemma mem_blockCids_deleteBlocks {st : StoreState} {cs : List Cid} {c : Cid} :
    c ∈ blockCids (deleteBlocks st cs) ↔ c ∈ blockCids st ∧ c ∉ cs := by
  unfold blockCids deleteBlocks
  simp only [List.mem_map, List.mem_filter, Bool.not_eq_true']
  constructor
  · rintro ⟨e, ⟨he, hp⟩, rfl⟩
    refine ⟨⟨e, he, rfl⟩, fun hmem => ?_⟩
    have := contains_iff_mem.mpr hmem
    rw [hp] at this
    exact Bool.false_ne_true this
  · rintro ⟨⟨e, he, rfl⟩, hmem⟩
    refine ⟨e, ⟨he, ?_⟩, rfl⟩
    exact Bool.eq_false_iff.mpr (fun hcontains => hmem (contains_iff_mem.mp hcontains))

lemma take_candidates_unreachable (st : StoreState) (k : Nat) :
    ∀ c ∈ (candidates st).take k, c ∉ reachableList st := by
  intro c hc
  exact (mem_candidates.mp (List.take_subset k _ hc)).2

lemma incrementalGC_fst (st : StoreState) (mb : Nat) :
    (incrementalGC st mb).1 = deleteBlocks st ((candidates st).take mb) := rfl

lemma incrementalGC_snd (st : StoreState) (mb : Nat) :
    (incrementalGC st mb).2 = decide ((candidates st).length ≤ mb) := rfl

lemma rootList_incrementalGC (st : StoreState) (mb : Nat) :
    rootList (incrementalGC st mb).1 = rootList st := rfl

lemma reachableList_incrementalGC (st : StoreState) (mb : Nat) (x : Cid) :
    x ∈ reachableList (incrementalGC st mb).1 ↔ x ∈ reachableList st := by
  rw [incrementalGC_fst]
  exact reachableList_deleteBlocks (take_candidates_unreachable st mb) x

lemma blockCids_incrementalGC_subset {st : StoreState} {mb : Nat} {c : Cid}
    (h : c ∈ blockCids (incrementalGC st mb).1) : c ∈ blockCids st := by
  rw [incrementalGC_fst] at h
  exact (mem_blockCids_deleteBlocks.mp h).1

lemma incrementalGC_done_candidates {st : StoreState} {mb : Nat}
    (h : (incrementalGC st mb).2 = true) : candidates (incrementalGC st mb).1 = [] := by
  rw [incrementalGC_snd] at h
  have hlen : (candidates st).length ≤ mb := of_decide_eq_true h
  have htake : (candidates st).take mb = candidates st := List.take_of_length_le hlen
  rw [List.eq_nil_iff_forall_not_mem]
  intro c hc
  rw [incrementalGC_fst, htake] at hc
  have h1 := mem_candidates.mp hc
  have h2 := mem_blockCids_deleteBlocks.mp h1.1
  have h3 : c ∉ reachableList st := by
    intro hr
    exact h1.2 ((reachableList_deleteBlocks (fun d hd => (mem_candidates.mp hd).2) c).mpr hr)
  exact h2.2 (mem_candidates.mpr ⟨h2.1, h3⟩)

lemma deleteBlocks_nil (st : StoreState) : deleteBlocks st [] = st := by
  unfold deleteBlocks
  have hfilter : st.blocks.filter (fun e => !(([] : List Cid).contains e.1)) = st.blocks :=
    List.filter_eq_self.mpr (fun a _ => rfl)
  rw [hfilter]

lemma candidates_nil_noop {st : StoreState} (mb : Nat) (h : candidates st = []) :
    incrementalGC st mb = (st, true) := by
  unfold incrementalGC
  rw [h]
  simp [deleteBlocks_nil]

lemma incrementalGC_progress {st : StoreState} {mb : Nat} (hmb : 0 < mb)
    (h : (incrementalGC st mb).2 = false) :
    (incrementalGC st mb).1.blocks.length < st.blocks.length := by
  rw [incrementalGC_snd] at h
  have hlen : mb < (candidates st).length := by
    have := of_decide_eq_false h
    omega
  have htl : ((candidates st).take mb).length = mb := by
    rw [List.length_take]
    omega
  have hne : (candidates st).take mb ≠ [] := by
    intro hnil
    rw [hnil] at htl
    simp at htl
    omega
  obtain ⟨c, hc⟩ := List.exists_mem_of_ne_nil _ hne
  have hcand : c ∈ candidates st := List.take_subset mb _ hc
  have hcid : c ∈ blockCids st := (mem_candidates.mp hcand).1
  obtain ⟨e, he, hec⟩ := List.mem_map.mp hcid
  rw [incrementalGC_fst]
  unfold deleteBlocks
  refine List.length_filter_lt_length_iff_exists.mpr ⟨e, he, ?_⟩
  have hcmem : e.1 ∈ (candidates st).take mb := by rw [hec]; exact hc
  simp
  exact hcmem

lemma orphan_eq_gc : @incrementalDeleteOrphaned = @incrementalGC := rfl

lemma loopUntilDone_succ (pass : StoreState → Nat → StoreState × Bool) (mb fuel : Nat)
    (st : StoreState) :
    loopUntilDone pass mb (fuel + 1) st =
      if (pass st mb).2 then ((pass st mb).1, true)
      else loopUntilDone pass mb fuel (pass st mb).1 := rfl

lemma loopUntilDone_gc_done {mb : Nat} (hmb : 0 < mb) :
    ∀ fuel st, st.blocks.length < fuel →
      (loopUntilDone incrementalGC mb fuel st).2 = true ∧
      candidates (loopUntilDone incrementalGC mb fuel st).1 = [] := by
  intro fuel
  induction fuel with
  | zero => intro st hst; omega
  | succ f ih =>
    intro st hst
    rw [loopUntilDone_succ]
    cases hdone : (incrementalGC st mb).2 with
    | true =>
      exact ⟨rfl, incrementalGC_done_candidates hdone⟩
    | false =>
      have hprog := incrementalGC_progress hmb hdone
      exact ih (incrementalGC st mb).1 (by omega)

lemma loopUntilDone_gc_invariant (mb : Nat) :
    ∀ fuel st,
      (∀ x, x ∈ reachableList (loopUntilDone incrementalGC mb fuel st).1 ↔
        x ∈ reachableList st) ∧
      rootList (loopUntilDone incrementalGC mb fuel st).1 = rootList st ∧
      (∀ c, c ∈ blockCids (loopUntilDone incrementalGC mb fuel st).1 → c ∈ blockCids st) := by
  intro fuel
  induction fuel with
  | zero => intro st; exact ⟨fun x => Iff.rfl, rfl, fun c hc => hc⟩
  | succ f ih =>
    intro st
    rw [loopUntilDone_succ]
    cases hdone : (incrementalGC st mb).2 with
    | true =>
      exact ⟨reachableList_incrementalGC st mb, rootList_incrementalGC st mb,
        fun c hc => blockCids_incrementalGC_subset hc⟩
    | false =>
      obtain ⟨h1, h2, h3⟩ := ih (incrementalGC st mb).1
      refine ⟨fun x => Iff.trans (h1 x) (reachableList_incrementalGC st mb x),
        h2.trans (rootList_incrementalGC st mb),
        fun c hc => blockCids_incrementalGC_subset (h3 c hc)⟩

lemma evict_fst (st : StoreState) (mb : Nat) :
    (evict st mb).1 =
      (loopUntilDone incrementalDeleteOrphaned mb
        ((loopUntilDone incrementalGC mb (st.blocks.length + 1) st).1.blocks.length + 1)
        (loopUntilDone incrementalGC mb (st.blocks.length + 1) st).1).1 := rfl

lemma evict_snd (st : StoreState) (mb : Nat) :
    (evict st mb).2 =
      ((loopUntilDone incrementalGC mb (st.blocks.length + 1) st).2 &&
        (loopUntilDone incrementalDeleteOrphaned mb
          ((loopUntilDone incrementalGC mb (st.blocks.length + 1) st).1.blocks.length + 1)
          (loopUntilDone incrementalGC mb (st.blocks.length + 1) st).1).2) := rfl

lemma evict_done {st : StoreState} {mb : Nat} (hmb : 0 < mb) : (evict st mb).2 = true := by
  rw [evict_snd, orphan_eq_gc, Bool.and_eq_true]
  exact ⟨(loopUntilDone_gc_done hmb _ st (Nat.lt_succ_self _)).1,
    (loopUntilDone_gc_done hmb _ _ (Nat.lt_succ_self _)).1⟩

lemma evict_candidates_nil {st : StoreState} {mb : Nat} (hmb : 0 < mb) :
    candidates (evict st mb).1 = [] := by
  rw [evict_fst, orphan_eq_gc]
  exact (loopUntilDone_gc_done hmb _ _ (Nat.lt_succ_self _)).2

lemma evict_invariant (st : StoreState) (mb : Nat) :
    (∀ x, x ∈ reachableList (evict st mb).1 ↔ x ∈ reachableList st) ∧
    rootList (evict st mb).1 = rootList st ∧
    (∀ c, c ∈ blockCids (evict st mb).1 → c ∈ blockCids st) := by
  obtain ⟨a1, b1, c1⟩ := loopUntilDone_gc_invariant mb (st.blocks.length + 1) st
  obtain ⟨a2, b2, c2⟩ := loopUntilDone_gc_invariant mb
    ((loopUntilDone incrementalGC mb (st.blocks.length + 1) st).1.blocks.length + 1)
    (loopUntilDone incrementalGC mb (st.blocks.length + 1) st).1
  rw [evict_fst, orphan_eq_gc]
  exact ⟨fun x => (a2 x).trans (a1 x), b2.trans b1, fun c hc => c1 c (c2 c hc)⟩

lemma evict_all_reachable {st : StoreState} {mb : Nat} (hmb : 0 < mb) :
    ∀ c ∈ blockCids (evict st mb).1, c ∈ reachableList (evict st mb).1 := by
  intro c hc
  by_contra hr
  have hmem : c ∈ candidates (evict st mb).1 := mem_candidates.mpr ⟨hc, hr⟩
  rw [evict_candidates_nil hmb] at hmem
  exact List.not_mem_nil c hmem

lemma evict_deletes_unreachable {st : StoreState} {mb : Nat} {c : Cid} (hmb : 0 < mb)
    (hun : c ∉ reachableList st) : c ∉ blockCids (evict st mb).1 := by
  intro hc
  exact hun (((evict_invariant st mb).1 c).mp (evict_all_reachable hmb c hc))

lemma iterGC_succ (mb n : Nat) (st : StoreState) :
    iterGC mb (n + 1) st = iterGC mb n (incrementalGC st mb).1 := rfl

lemma iterGC_noop {mb : Nat} {st : StoreState} (h : candidates st = []) :
    ∀ n, iterGC mb n st = st := by
  intro n
  induction n with
  | zero => rfl
  | succ k ih =>
    rw [iterGC_succ, show (incrementalGC st mb).1 = st from by rw [candidates_nil_noop mb h]]
    exact ih

lemma iterGC_candidates_nil_aux {mb : Nat} (hmb : 0 < mb) :
    ∀ N st k, st.blocks.length ≤ N → st.blocks.length ≤ k →
      candidates (iterGC mb k st) = [] := by
  intro N
  induction N with
  | zero =>
    intro st k hN hk
    have hb : st.blocks = [] := List.length_eq_zero.mp (Nat.le_zero.mp hN)
    have hcand : candidates st = [] := by
      unfold candidates blockCids
      rw [hb]
      rfl
    rw [iterGC_noop hcand k]
    exact hcand
  | succ N ih =>
    intro st k hN hk
    by_cases hcand : candidates st = []
    · rw [iterGC_noop hcand k]
      exact hcand
    · have hbpos : 0 < st.blocks.length := by
        obtain ⟨c, hc⟩ := List.exists_mem_of_ne_nil _ hcand
        obtain ⟨e, he, _⟩ := List.mem_map.mp (mem_candidates.mp hc).1
        exact List.length_pos.mpr (List.ne_nil_of_mem he)
      obtain ⟨k', rfl⟩ : ∃ k', k = k' + 1 := ⟨k - 1, by omega⟩
      rw [iterGC_succ]
      cases hdone : (incrementalGC st mb).2 with
      | true =>
        have h2 : candidates (incrementalGC st mb).1 = [] :=
          incrementalGC_done_candidates hdone
        rw [iterGC_noop h2 k']
        exact h2
      | false =>
        have hprog := incrementalGC_progress hmb hdone
        exact ih (incrementalGC st mb).1 k' (by omega) (by omega)

lemma iterGC_candidates_nil {mb : Nat} (hmb : 0 < mb) (st : StoreState) :
    ∀ k, st.blocks.length ≤ k → candidates (iterGC mb k st) = [] :=
  fun k hk => iterGC_candidates_nil_aux hmb st.blocks.length st k le_rfl hk

/-! ## Insert / get / temp pin lemmas -/

lemma blocks_assignTempPin (st : StoreState) (h : Nat) (cs : List Cid) :
    (assignTempPin st h cs).blocks = st.blocks := rfl

lemma pinAdd_single_idem (h : Nat) (c : Cid) (p : Nat × List Cid) :
    pinAdd h [c] (pinAdd h [c] p) = pinAdd h [c] p := by
  by_cases hph : (p.1 == h) = true
  · have hcq : c ∈ p.2 ++ [c].filter (fun d => !(p.2.contains d)) := by
      by_cases hm : c ∈ p.2
      · exact List.mem_append_left _ hm
      · refine List.mem_append_right _ (List.mem_filter.mpr ?_)
        refine ⟨List.mem_singleton.mpr rfl, ?_⟩
        simp only [Bool.not_eq_true']
        exact Bool.eq_false_iff.mpr (fun hx => hm (contains_iff_mem.mp hx))
    simp [pinAdd, hph, contains_iff_mem.mpr hcq]
  · simp [pinAdd, hph]

lemma assignTempPin_single_idem (st : StoreState) (h : Nat) (c : Cid) :
    assignTempPin (assignTempPin st h [c]) h [c] = assignTempPin st h [c] := by
  unfold assignTempPin
  congr 1
  rw [List.map_map]
  exact List.map_eq_map_iff.mpr (fun p _ => pinAdd_single_idem h c p)

lemma insert_blocks_eq (st : StoreState) (b : BlockData) (pin : Option Nat) :
    (insertBlock st b pin).blocks =
      (b.cid, (b.data, b.links)) :: st.blocks.filter (fun e => !(e.1 == b.cid)) := by
  cases pin with
  | none => rfl
  | some h => rfl

lemma get_insertBlock (st : StoreState) (b : BlockData) (pin : Option Nat) :
    get (insertBlock st b pin) b.cid = some b.data := by
  unfold get
  rw [insert_blocks_eq, List.lookup_cons]
  simp

lemma filter_ne_key_idem {β : Type} (l : List (Cid × β)) (k : Cid) :
    (l.filter (fun e => !(e.1 == k))).filter (fun e => !(e.1 == k)) =
      l.filter (fun e => !(e.1 == k)) := by
  rw [List.filter_filter]
  exact List.filter_congr (fun a _ => by rw [Bool.and_self])

lemma insert_blocks_idem (l : List (Cid × (List Nat × List Cid))) (k : Cid)
    (v : List Nat × List Cid) :
    (k, v) :: (((k, v) :: l.filter (fun e => !(e.1 == k))).filter
        (fun e => !(e.1 == k))) =
      (k, v) :: l.filter (fun e => !(e.1 == k)) := by
  rw [List.filter_cons_of_neg (by simp), filter_ne_key_idem]

lemma StoreState.ext_eq {s t : StoreState} (hb : s.blocks = t.blocks)
    (ha : s.aliases = t.aliases) (hp : s.tempPins = t.tempPins) : s = t := by
  cases s
  cases t
  simp_all

lemma aliases_insertBlock (st : StoreState) (b : BlockData) (pin : Option Nat) :
    (insertBlock st b pin).aliases = st.aliases := by
  cases pin with
  | none => rfl
  | some h => rfl

lemma tempPins_insertBlock_none (st : StoreState) (b : BlockData) :
    (insertBlock st b none).tempPins = st.tempPins := rfl

lemma tempPins_insertBlock_some (st : StoreState) (b : BlockData) (h : Nat) :
    (insertBlock st b (some h)).tempPins = st.tempPins.map (pinAdd h [b.cid]) := rfl

lemma insertBlock_idem (st : StoreState) (b : BlockData) (pin : Option Nat) :
    insertBlock (insertBlock st b pin) b pin = insertBlock st b pin := by
  apply StoreState.ext_eq
  · rw [insert_blocks_eq, insert_blocks_eq st b pin]
    exact insert_blocks_idem st.blocks b.cid (b.data, b.links)
  · rw [aliases_insertBlock, aliases_insertBlock]
  · cases pin with
    | none => rw [tempPins_insertBlock_none, tempPins_insertBlock_none]
    | some h =>
      rw [tempPins_insertBlock_some, tempPins_insertBlock_some, List.map_map]
      exact List.map_eq_map_iff.mpr (fun p _ => pinAdd_single_idem h b.cid p)

/-! ## Alias table and reverse-alias lemmas -/

lemma blocks_setAlias (st : StoreState) (name : AliasName) (target : Option Cid) :
    (setAlias st name target).blocks = st.blocks := by
  cases target with
  | none => rfl
  | some c => rfl

lemma tempPins_setAlias (st : StoreState) (name : AliasName) (target : Option Cid) :
    (setAlias st name target).tempPins = st.tempPins := by
  cases target with
  | none => rfl
  | some c => rfl

lemma aliases_setAlias_none (st : StoreState) (name : AliasName) :
    (setAlias st name none).aliases = st.aliases.filter (fun a => !(a.1 == name)) := rfl

lemma mem_aliases_setAlias_none {st : StoreState} {name m : AliasName} {t : Cid} :
    (m, t) ∈ (setAlias st name none).aliases ↔ (m, t) ∈ st.aliases ∧ m ≠ name := by
  rw [aliases_setAlias_none, List.mem_filter]
  constructor
  · rintro ⟨hm, hp⟩
    refine ⟨hm, fun he => ?_⟩
    rw [show ((m, t).1 == name) = true from beq_iff_eq.mpr he] at hp
    exact Bool.false_ne_true (by simpa using hp.symm)
  · rintro ⟨hm, hne⟩
    refine ⟨hm, ?_⟩
    rw [show ((m, t).1 == name) = false from beq_eq_false_iff_ne.mpr hne]
    rfl

lemma closureSteps_congr {st st' : StoreState} (h : st.blocks = st'.blocks)
    (init : List Cid) : ∀ n, closureSteps st init n = closureSteps st' init n := by
  intro n
  induction n with
  | zero => rfl
  | succ k ih =>
    show expandOnce st (closureSteps st init k) = expandOnce st' (closureSteps st' init k)
    rw [ih]
    unfold expandOnce
    rw [show linksOf st = linksOf st' from funext (linksOf_congr h)]

lemma closureFrom_congr {st st' : StoreState} (h : st.blocks = st'.blocks)
    (init : List Cid) : closureFrom st init = closureFrom st' init := by
  unfold closureFrom closureBound closureUniverse
  rw [h, closureSteps_congr h]

lemma reachesFromB_congr {st st' : StoreState} (h : st.blocks = st'.blocks) (r c : Cid) :
    reachesFromB st r c = reachesFromB st' r c := by
  unfold reachesFromB
  rw [closureFrom_congr h]

lemma reverseAlias_none_iff (st : StoreState) (c : Cid) :
    reverseAlias st c = none ↔ st.blocks.lookup c = none := by
  unfold reverseAlias
  by_cases h : (st.blocks.lookup c).isSome = true
  · rw [if_pos h]
    constructor
    · intro hcon
      exact absurd hcon (Option.some_ne_none _)
    · intro hnone
      rw [hnone] at h
      exact absurd h (by simp)
  · rw [if_neg h]
    simp only [true_iff]
    exact Option.not_isSome_iff_eq_none.mp (fun hs => h hs)

lemma reverseAlias_present (st : StoreState) (c : Cid)
    (h : (st.blocks.lookup c).isSome = true) :
    reverseAlias st c =
      some ((st.aliases.filter (fun a => reachesFromB st a.2 c)).map (fun a => a.1)) := by
  unfold reverseAlias
  rw [if_pos h]

lemma mem_reverseAlias {st : StoreState} {c : Cid} {l : List AliasName}
    (h : reverseAlias st c = some l) (n : AliasName) :
    n ∈ l ↔ ∃ t, (n, t) ∈ st.aliases ∧ Reach st t c := by
  unfold reverseAlias at h
  by_cases hs : (st.blocks.lookup c).isSome = true
  · rw [if_pos hs] at h
    have hl := Option.some.inj h
    subst hl
    rw [List.mem_map]
    constructor
    · rintro ⟨a, ha, rfl⟩
      obtain ⟨hmem, hreach⟩ := List.mem_filter.mp ha
      exact ⟨a.2, hmem, (reachesFromB_iff st a.2 c).mp hreach⟩
    · rintro ⟨t, hmem, hreach⟩
      exact ⟨(n, t), List.mem_filter.mpr ⟨hmem, (reachesFromB_iff st t c).mpr hreach⟩, rfl⟩
  · rw [if_neg hs] at h
    exact absurd h (by simp)

/-! ## Channel and tracker lemmas -/

lemma unboundedSend_closed (ch : Channel) (ev : StorageEvent) :
    (unboundedSend ch ev).1.closed = ch.closed := by
  unfold unboundedSend
  by_cases h : ch.closed = true
  · rw [if_pos h]
  · rw [if_neg h]

lemma unboundedSend_open (ch : Channel) (ev : StorageEvent) (h : ch.closed = false) :
    (unboundedSend ch ev).1 =
      { ch with buf := ch.buf ++ [ev], attempts := ch.attempts + 1 } := by
  unfold unboundedSend
  rw [if_neg (by rw [h]; exact Bool.false_ne_true)]

lemma unboundedSend_closed_state (ch : Channel) (ev : StorageEvent) (h : ch.closed = true) :
    (unboundedSend ch ev).1 = { ch with attempts := ch.attempts + 1 } := by
  unfold unboundedSend
  rw [if_pos h]

lemma foldl_send_open :
    ∀ (blocks : List BlockInfo) (ch : Channel), ch.closed = false →
      (blocks.foldl (fun c b => (unboundedSend c (StorageEvent.Remove b.cid)).1) ch).buf =
        ch.buf ++ blocks.map (fun b => StorageEvent.Remove b.cid) := by
  intro blocks
  induction blocks with
  | nil => intro ch h; simp
  | cons b t ih =>
    intro ch h
    rw [List.foldl_cons]
    have h2 : ((unboundedSend ch (StorageEvent.Remove b.cid)).1).closed = false := by
      rw [unboundedSend_closed]
      exact h
    rw [ih _ h2, unboundedSend_open ch _ h]
    simp

lemma foldl_send_closed_buf :
    ∀ (blocks : List BlockInfo) (ch : Channel), ch.closed = true →
      (blocks.foldl (fun c b => (unboundedSend c (StorageEvent.Remove b.cid)).1) ch).buf =
        ch.buf := by
  intro blocks
  induction blocks with
  | nil => intro ch h; rfl
  | cons b t ih =>
    intro ch h
    rw [List.foldl_cons, unboundedSend_closed_state ch _ h]
    exact ih _ h

lemma foldl_send_attempts :
    ∀ (blocks : List BlockInfo) (ch : Channel),
      (blocks.foldl (fun c b => (unboundedSend c (StorageEvent.Remove b.cid)).1) ch).attempts =
        ch.attempts + blocks.length := by
  intro blocks
  induction blocks with
  | nil => intro ch; rfl
  | cons b t ih =>
    intro ch
    rw [List.foldl_cons]
    have hstep : ((unboundedSend ch (StorageEvent.Remove b.cid)).1).attempts =
        ch.attempts + 1 := by
      unfold unboundedSend
      by_cases h : ch.closed = true
      · rw [if_pos h]
      · rw [if_neg h]
    rw [ih, hstep]
    simp only [List.length_cons]
    omega

lemma blocksDeleted_chan (ts : TrackerState) (blocks : List BlockInfo) :
    (blocksDeleted ts blocks).chan =
      blocks.foldl (fun c b => (unboundedSend c (StorageEvent.Remove b.cid)).1) ts.chan := rfl

lemma blocksDeleted_inner (ts : TrackerState) (blocks : List BlockInfo) :
    (blocksDeleted ts blocks).innerDeleted = ts.innerDeleted ++ [blocks] := rfl

/-! ## Claim theorems -/

/-- C4: when the receiving end of the eviction channel is alive, one GC
deletion notification (`IpfsCacheTracker::blocks_deleted`) appends to the
channel exactly one `Remove(cid)` event per deleted block, in deletion
order, and the whole deleted-block list is forwarded to the inner cache
tracker. -/
theorem blocksDeleted_emits_in_order (ts : TrackerState) (blocks : List BlockInfo)
    (h : ts.chan.closed = false) :
    (blocksDeleted ts blocks).chan.buf =
      ts.chan.buf ++ blocks.map (fun b => StorageEvent.Remove b.cid) ∧
    (blocksDeleted ts blocks).innerDeleted = ts.innerDeleted ++ [blocks] := by
  refine ⟨?_, blocksDeleted_inner ts blocks⟩
  rw [blocksDeleted_chan]
  exact foldl_send_open blocks ts.chan h

/-- C4 witness: two deleted blocks produce exactly their two `Remove`
events, in order. -/
theorem blocksDeleted_emits_in_order_witness :
    (⟨false, [], 0⟩ : Channel).closed = false ∧
    (blocksDeleted (⟨⟨false, [], 0⟩, []⟩ : TrackerState)
        ([⟨1, 10, 4⟩, ⟨2, 11, 5⟩] : List BlockInfo)).chan.buf =
      [] ++ ([⟨1, 10, 4⟩, ⟨2, 11, 5⟩] : List BlockInfo).map
        (fun b => StorageEvent.Remove b.cid) ∧
    (blocksDeleted (⟨⟨false, [], 0⟩, []⟩ : TrackerState)
        ([⟨1, 10, 4⟩, ⟨2, 11, 5⟩] : List BlockInfo)).innerDeleted =
      [] ++ [([⟨1, 10, 4⟩, ⟨2, 11, 5⟩] : List BlockInfo)] :=
  ⟨rfl, blocksDeleted_emits_in_order (⟨⟨false, [], 0⟩, []⟩ : TrackerState)
    ([⟨1, 10, 4⟩, ⟨2, 11, 5⟩] : List BlockInfo) rfl⟩

/-- C10: when sending on the eviction channel fails (the receiver was
dropped), `blocks_deleted` ignores the failure: it still attempts a send
for every deleted block, forwards the whole list to the inner tracker, and
the channel buffer is simply left unchanged. -/
theorem blocksDeleted_ignores_send_failure (ts : TrackerState) (blocks : List BlockInfo)
    (h : ts.chan.closed = true) :
    (blocksDeleted ts blocks).innerDeleted = ts.innerDeleted ++ [blocks] ∧
    (blocksDeleted ts blocks).chan.attempts = ts.chan.attempts + blocks.length ∧
    (blocksDeleted ts blocks).chan.buf = ts.chan.buf := by
  refine ⟨blocksDeleted_inner ts blocks, ?_, ?_⟩
  · rw [blocksDeleted_chan]
    exact foldl_send_attempts blocks ts.chan
  · rw [blocksDeleted_chan]
    exact foldl_send_closed_buf blocks ts.chan h

/-- C10 witness: with a dropped receiver, both deletions are still
reported to the inner tracker and both sends are attempted. -/
theorem blocksDeleted_ignores_send_failure_witness :
    (⟨true, [], 0⟩ : Channel).closed = true ∧
    (blocksDeleted (⟨⟨true, [], 0⟩, []⟩ : TrackerState)
        ([⟨1, 10, 4⟩, ⟨2, 11, 5⟩] : List BlockInfo)).innerDeleted =
      [] ++ [([⟨1, 10, 4⟩, ⟨2, 11, 5⟩] : List BlockInfo)] ∧
    (blocksDeleted (⟨⟨true, [], 0⟩, []⟩ : TrackerState)
        ([⟨1, 10, 4⟩, ⟨2, 11, 5⟩] : List BlockInfo)).chan.attempts =
      0 + ([⟨1, 10, 4⟩, ⟨2, 11, 5⟩] : List BlockInfo).length ∧
    (blocksDeleted (⟨⟨true, [], 0⟩, []⟩ : TrackerState)
        ([⟨1, 10, 4⟩, ⟨2, 11, 5⟩] : List BlockInfo)).chan.buf = [] :=
  ⟨rfl, blocksDeleted_ignores_send_failure (⟨⟨true, [], 0⟩, []⟩ : TrackerState)
    ([⟨1, 10, 4⟩, ⟨2, 11, 5⟩] : List BlockInfo) rfl⟩

/-- C5: `observe_query` always increments the per-operation counter, passes
the query result through unchanged, and records a duration sample in the
per-operation histogram exactly when the query succeeds; a failed query
discards the timer sample and leaves the histogram unchanged. -/
theorem observeQuery_records_iff_success {α : Type} (m : Metrics) (name : String)
    (res : QueryResult α) (sample : Nat) :
    ((observeQuery m name res sample).1.histograms name =
      if res.isOk then m.histograms name ++ [sample] else m.histograms name) ∧
    (observeQuery m name res sample).1.counters name = m.counters name + 1 ∧
    (observeQuery m name res sample).2 = res := by
  cases res with
  | ok a =>
    refine ⟨?_, ?_, rfl⟩
    · simp [observeQuery, recordSample, incCounter, QueryResult.isOk]
    · simp [observeQuery, recordSample, incCounter]
  | err e =>
    refine ⟨?_, ?_, rfl⟩
    · simp [observeQuery, incCounter, QueryResult.isOk]
    · simp [observeQuery, incCounter]

/-- C7: `StorageService::open` chooses the storage backend from the
configured path — no path means the ephemeral in-memory store
(`BlockStore::memory`), a path means the durable store at that location
(`BlockStore::open`). -/
theorem openStorageService_backend (config : StorageConfig) :
    (config.path = none → (openStorageService config).backend = StoreBackend.memory) ∧
    (∀ p, config.path = some p →
      (openStorageService config).backend = StoreBackend.file p) := by
  constructor
  · intro h
    unfold openStorageService
    rw [h]
  · intro p h
    unfold openStorageService
    rw [h]

/-- C7 witness: a config without a path opens in memory; one with a path
opens the durable store at that path. -/
theorem openStorageService_backend_witness :
    (openStorageService (StorageConfig.new none 2 ⟨100, 0⟩)).backend =
      StoreBackend.memory ∧
    (openStorageService (StorageConfig.new (some "db") 2 ⟨100, 0⟩)).backend =
      StoreBackend.file "db" :=
  ⟨(openStorageService_backend _).1 rfl, (openStorageService_backend _).2 "db" rfl⟩

/-- C8: `StorageConfig::new` fills in permissive GC defaults: the block
budget is `usize::MAX`, the per-pass time budget is the maximum
representable `Duration` (no effective time limit), and the byte size
target is `u64::MAX`, so only the block-count budget (`cache_size`) binds;
the caller-supplied fields are stored unchanged. -/
theorem storageConfigNew_defaults (path : Option String) (cacheSize : Nat)
    (gcInterval : DurationM) :
    (StorageConfig.new path cacheSize gcInterval).gcMinBlocks = USIZE_MAX ∧
    (StorageConfig.new path cacheSize gcInterval).gcTargetDuration =
      DurationM.maxRepresentable ∧
    (StorageConfig.new path cacheSize gcInterval).cacheSizeBytes = U64_MAX ∧
    (StorageConfig.new path cacheSize gcInterval).path = path ∧
    (StorageConfig.new path cacheSize gcInterval).cacheSizeBlocks = cacheSize ∧
    (StorageConfig.new path cacheSize gcInterval).gcInterval = gcInterval ∧
    ∀ d : DurationM, d.secs ≤ U64_MAX → d.nanos ≤ 999999999 →
      d.secs * 1000000000 + d.nanos ≤
        DurationM.maxRepresentable.secs * 1000000000 + DurationM.maxRepresentable.nanos := by
  refine ⟨rfl, ?_, rfl, rfl, rfl, rfl, ?_⟩
  · show (DurationM.new U64_MAX (1000000000 - 1)).getD ⟨0, 0⟩ = DurationM.maxRepresentable
    decide
  · intro d hs hn
    simp only [DurationM.maxRepresentable, U64_MAX] at hs hn ⊢
    omega

/-- C8 witness: the defaults computed for a concrete call, plus the
maximality of the default time budget at a concrete duration. -/
theorem storageConfigNew_defaults_witness :
    (StorageConfig.new none 2 ⟨100, 0⟩).gcMinBlocks = USIZE_MAX ∧
    (StorageConfig.new none 2 ⟨100, 0⟩).gcTargetDuration = DurationM.maxRepresentable ∧
    (StorageConfig.new none 2 ⟨100, 0⟩).cacheSizeBytes = U64_MAX ∧
    5 * 1000000000 + 7 ≤
      DurationM.maxRepresentable.secs * 1000000000 + DurationM.maxRepresentable.nanos :=
  ⟨(storageConfigNew_defaults none 2 ⟨100, 0⟩).1,
    (storageConfigNew_defaults none 2 ⟨100, 0⟩).2.1,
    (storageConfigNew_defaults none 2 ⟨100, 0⟩).2.2.1,
    (storageConfigNew_defaults none 2 ⟨100, 0⟩).2.2.2.2.2.2 ⟨5, 7⟩ (by decide) (by decide)⟩

/-- C3: inserting a block then getting its CID returns exactly the
original bytes, and re-inserting the identical block (with the same
optional temp pin) leaves the store state unchanged — insert is
idempotent. -/
theorem insert_get_roundtrip (st : StoreState) (b : BlockData) (pin : Option Nat) :
    get (insertBlock st b pin) b.cid = some b.data ∧
    insertBlock (insertBlock st b pin) b pin = insertBlock st b pin :=
  ⟨get_insertBlock st b pin, insertBlock_idem st b pin⟩

/-- C6: `reverse_alias(cid)` returns `None` exactly when the block is
absent; when the block is present it returns `Some` of the list of alias
names whose target transitively reaches `cid`, an empty list meaning the
block is present but unprotected by any alias. -/
theorem reverseAlias_characterization (st : StoreState) (c : Cid) :
    (reverseAlias st c = none ↔ st.blocks.lookup c = none) ∧
    ((st.blocks.lookup c).isSome = true → ∃ l, reverseAlias st c = some l) ∧
    (∀ l, reverseAlias st c = some l →
      ∀ n, n ∈ l ↔ ∃ t, (n, t) ∈ st.aliases ∧ Reach st t c) := by
  refine ⟨reverseAlias_none_iff st c, ?_, ?_⟩
  · intro h
    exact ⟨_, reverseAlias_present st c h⟩
  · intro l hl n
    exact mem_reverseAlias hl n

/-- C6 witness: in the two-alias scenario, an unknown CID yields `None`,
block 1 is present, and its reverse aliases are exactly `[0]` and `[1]`. -/
theorem reverseAlias_characterization_witness :
    (reverseAlias twoAliasStore 99 = none ↔ twoAliasStore.blocks.lookup 99 = none) ∧
    (∃ l, reverseAlias twoAliasStore 1 = some l) ∧
    (∀ n, n ∈ [[0], [1]] ↔ ∃ t, (n, t) ∈ twoAliasStore.aliases ∧ Reach twoAliasStore t 1) :=
  ⟨(reverseAlias_characterization twoAliasStore 99).1,
    (reverseAlias_characterization twoAliasStore 1).2.1 (by decide),
    (reverseAlias_characterization twoAliasStore 1).2.2 [[0], [1]] (by decide)⟩

/-- C1: `evict()` loops the incremental GC pass to done and then the
orphan-deletion pass to done, and afterwards every block remaining in the
store is transitively reachable from some root — an alias target or a CID
protected by a live temp pin. -/
theorem evict_leaves_only_reachable (st : StoreState) (mb : Nat) (hmb : 0 < mb) :
    (evict st mb).2 = true ∧
    ∀ c ∈ blockCids (evict st mb).1,
      ∃ r ∈ rootList (evict st mb).1, Reach (evict st mb).1 r c := by
  refine ⟨evict_done hmb, ?_⟩
  intro c hc
  have hre := evict_all_reachable hmb c hc
  unfold reachableList at hre
  exact (closureFrom_iff_reach _ _ c).mp hre

/-- C1 witness: on the example store, `evict` reports done and every
surviving block is reachable from a root. -/
theorem evict_leaves_only_reachable_witness :
    0 < 1 ∧ ((evict exampleStore 1).2 = true ∧
      ∀ c ∈ blockCids (evict exampleStore 1).1,
        ∃ r ∈ rootList (evict exampleStore 1).1, Reach (evict exampleStore 1).1 r c) :=
  ⟨by decide, evict_leaves_only_reachable exampleStore 1 (by decide)⟩

lemma iterGC_succ_back (mb : Nat) :
    ∀ n st, iterGC mb (n + 1) st = (incrementalGC (iterGC mb n st) mb).1 := by
  intro n
  induction n with
  | zero => intro st; rfl
  | succ k ih =>
    intro st
    rw [iterGC_succ, ih (incrementalGC st mb).1, iterGC_succ]

/-- C9: with no intervening mutation and a fixed positive budget, the
incremental GC pass reports done after at most `block count` iterations,
and from then on every further invocation is a no-op — it returns the
state unchanged together with done, deleting nothing; consequently both
`while` loops inside `evict()` terminate with done. -/
theorem incremental_gc_eventually_done (st : StoreState) (mb : Nat) (hmb : 0 < mb) :
    (∀ n, st.blocks.length ≤ n →
      incrementalGC (iterGC mb n st) mb = (iterGC mb n st, true) ∧
      iterGC mb (n + 1) st = iterGC mb n st) ∧
    (evict st mb).2 = true := by
  refine ⟨?_, evict_done hmb⟩
  intro n hn
  have hcand := iterGC_candidates_nil hmb st n hn
  refine ⟨candidates_nil_noop mb hcand, ?_⟩
  rw [iterGC_succ_back, candidates_nil_noop mb hcand]

/-- C9 witness: on the example store, three passes reach done and the
fourth changes nothing, and `evict` reports done. -/
theorem incremental_gc_eventually_done_witness :
    0 < 1 ∧ exampleStore.blocks.length ≤ 3 ∧
    (incrementalGC (iterGC 1 3 exampleStore) 1 = (iterGC 1 3 exampleStore, true) ∧
      iterGC 1 4 exampleStore = iterGC 1 3 exampleStore) ∧
    (evict exampleStore 1).2 = true :=
  ⟨by decide, by decide,
    (incremental_gc_eventually_done exampleStore 1 (by decide)).1 3 (by decide),
    (incremental_gc_eventually_done exampleStore 1 (by decide)).2⟩

/-- C2: if CID `x` is transitively protected by exactly the two distinct
aliases `n1` and `n2` (and by no temp pin), then removing `n1` alone
leaves `reverse_alias(x)` a non-empty list (still protected via `n2`),
while removing both aliases makes `reverse_alias(x)` the empty list and a
subsequent `evict()` deletes `x`. -/
theorem alias_refcount (st : StoreState) (x : Cid) (n1 n2 : AliasName) (mb : Nat)
    (hmb : 0 < mb) (hne : n1 ≠ n2)
    (hpresent : (st.blocks.lookup x).isSome = true)
    (_h1 : ∃ t1, (n1, t1) ∈ st.aliases ∧ Reach st t1 x)
    (h2 : ∃ t2, (n2, t2) ∈ st.aliases ∧ Reach st t2 x)
    (honly : ∀ n t, (n, t) ∈ st.aliases → Reach st t x → n = n1 ∨ n = n2)
    (hpins : ∀ p ∈ st.tempPins, ∀ r ∈ p.2, ¬ Reach st r x) :
    (∃ l, reverseAlias (setAlias st n1 none) x = some l ∧ l ≠ []) ∧
    reverseAlias (setAlias (setAlias st n1 none) n2 none) x = some [] ∧
    x ∉ blockCids (evict (setAlias (setAlias st n1 none) n2 none) mb).1 := by
  obtain ⟨t2, ht2, hr2⟩ := h2
  have hb1 : (setAlias st n1 none).blocks = st.blocks := blocks_setAlias st n1 none
  have hb2 : (setAlias (setAlias st n1 none) n2 none).blocks = st.blocks := by
    rw [blocks_setAlias, blocks_setAlias]
  refine ⟨?_, ?_, ?_⟩
  · have hpres1 : ((setAlias st n1 none).blocks.lookup x).isSome = true := by
      rw [hb1]
      exact hpresent
    have hsome := reverseAlias_present _ x hpres1
    have hmem := (mem_reverseAlias hsome n2).mpr
      ⟨t2, mem_aliases_setAlias_none.mpr ⟨ht2, fun he => hne he.symm⟩,
        (reach_congr hb1).mpr hr2⟩
    exact ⟨_, hsome, List.ne_nil_of_mem hmem⟩
  · have hpres2 : ((setAlias (setAlias st n1 none) n2 none).blocks.lookup x).isSome =
        true := by
      rw [hb2]
      exact hpresent
    rw [reverseAlias_present _ x hpres2]
    have hfil : (setAlias (setAlias st n1 none) n2 none).aliases.filter
        (fun a => reachesFromB (setAlias (setAlias st n1 none) n2 none) a.2 x) = [] := by
      rw [List.filter_eq_nil_iff]
      intro a ha hrb
      have ha1 := mem_aliases_setAlias_none.mp ha
      have ha2 := mem_aliases_setAlias_none.mp ha1.1
      have hrs : Reach st a.2 x := by
        rw [reachesFromB_congr hb2] at hrb
        exact (reachesFromB_iff st a.2 x).mp hrb
      rcases honly a.1 a.2 ha2.1 hrs with he | he
      · exact ha2.2 he
      · exact ha1.2 he
    rw [hfil]
    rfl
  · apply evict_deletes_unreachable hmb
    intro hmem
    unfold reachableList at hmem
    obtain ⟨r, hr, hreach⟩ := (closureFrom_iff_reach _ _ x).mp hmem
    have hreach2 : Reach st r x := (reach_congr hb2).mp hreach
    unfold rootList at hr
    rcases List.mem_append.mp hr with hal | hpin
    · obtain ⟨a, ha, har⟩ := List.mem_map.mp hal
      have ha1 := mem_aliases_setAlias_none.mp ha
      have ha2 := mem_aliases_setAlias_none.mp ha1.1
      rcases honly a.1 a.2 ha2.1 (by rw [har]; exact hreach2) with he | he
      · exact ha2.2 he
      · exact ha1.2 he
    · rw [List.mem_flatten] at hpin
      obtain ⟨l, hl, hrl⟩ := hpin
      obtain ⟨p, hp, hpl⟩ := List.mem_map.mp hl
      have hps : p ∈ st.tempPins := by
        rw [tempPins_setAlias, tempPins_setAlias] at hp
        exact hp
      exact hpins p hps r (by rw [hpl]; exact hrl) hreach2

/-- C2 witness: the `test_store_unpin2` scenario — aliases `[0]` and `[1]`
both target block 2 which references block 1; removing `[0]` keeps block 1
protected, removing both leaves it unprotected and `evict` deletes it. -/
theorem alias_refcount_witness :
    (∃ l, reverseAlias (setAlias twoAliasStore [0] none) 1 = some l ∧ l ≠ []) ∧
    reverseAlias (setAlias (setAlias twoAliasStore [0] none) [1] none) 1 = some [] ∧
    1 ∉ blockCids (evict (setAlias (setAlias twoAliasStore [0] none) [1] none) 1).1 :=
  alias_refcount twoAliasStore 1 [0] [1] 1 (by decide) (by decide) (by decide)
    ⟨2, by decide, Reach.tail (Reach.refl 2) (by decide)⟩
    ⟨2, by decide, Reach.tail (Reach.refl 2) (by decide)⟩
    (by
      intro n t hmem hr
      rcases List.mem_cons.mp hmem with he | he
      · exact Or.inl (congrArg Prod.fst he)
      · rcases List.mem_cons.mp he with he2 | he2
        · exact Or.inr (congrArg Prod.fst he2)
        · exact absurd he2 (List.not_mem_nil _))
    (fun p hp => absurd hp (List.not_mem_nil p))

/-- C2 counterexample: block 1 is transitively protected by the two
distinct aliases `[0]` and `[1]`, yet after removing both of them
`reverse_alias(1)` is not the empty list and `evict()` does not delete
block 1 — a third alias `[2]` still protects it, so the claim fails as
universally stated. -/
theorem alias_refcount_counterexample :
    (([0] : AliasName), (1 : Cid)) ∈ threeAliasStore.aliases ∧
    (([1] : AliasName), (1 : Cid)) ∈ threeAliasStore.aliases ∧
    Reach threeAliasStore 1 1 ∧ ([0] : AliasName) ≠ [1] ∧
    reverseAlias (setAlias (setAlias threeAliasStore [0] none) [1] none) 1 ≠ some [] ∧
    1 ∈ blockCids (evict (setAlias (setAlias threeAliasStore [0] none) [1] none) 1).1 :=
  ⟨by decide, by decide, Reach.refl 1, by decide, by decide, by decide⟩

end IpfsEmbed
